import Mathlib

set_option maxRecDepth 40000

/-!
Verification development for the urand PRNG pool library.

The library exposes a pool of up to 256 Xoshiro256 generators behind integer
handles (`create` / `destroy` / `nextU64` / `nextF64` / `nextU32Range` in the
Zig-compiled WASM core) and a registry of such pools that grows on demand
(`Prng.create` / `Prng.createAsync` in the TypeScript wrapper).  The pool and
registry logic is embedded here directly from the sources; the bit generator,
seed expansion and derived-value functions live in Zig's standard library
(compiled into the embedded WASM blob, not part of the repository sources) and
are modelled from the specification, as noted on each such definition.
-/

/-- Reduce a natural number to its low 64 bits (wrapping 64-bit arithmetic). -/
def wrap64 (x : Nat) : Nat := x % 2 ^ 64

/-- Modelled from the spec: 64-bit left rotation by `k` bits (§4.1,
`rotl(x,k)`); the implementation lives in Zig's standard library, compiled
into the embedded WASM module, not in this repository's sources. -/
def rotl64 (x k : Nat) : Nat := wrap64 (x <<< k) ||| (x >>> (64 - k))

/-- Modelled from the spec: one step of the SplitMix64 avalanche mixer used by
seed expansion (§4.2: "SplitMix64 or equivalent", "incrementing an internal
counter/golden-ratio constant each iteration"); the implementation lives in
Zig's standard library, not in this repository's sources.  Returns the mixed
output together with the advanced internal counter. -/
def splitmix64 (ctr : Nat) : Nat × Nat :=
  let s := wrap64 (ctr + 0x9E3779B97F4A7C15)
  let z := wrap64 ((s ^^^ (s >>> 30)) * 0xBF58476D1CE4E5B9)
  let w := wrap64 ((z ^^^ (z >>> 27)) * 0x94D049BB133111EB)
  (w ^^^ (w >>> 31), s)

/-- The four 64-bit words of a generator state (spec §3, GeneratorState);
mirrors the state of `std.Random.DefaultPrng` used by the Zig source. -/
structure GeneratorState where
  s0 : Nat
  s1 : Nat
  s2 : Nat
  s3 : Nat
deriving DecidableEq

/-- Modelled from the spec: seed expansion (§4.2) — the seed is normalized to
an unsigned 64-bit value and SplitMix64 is iterated four times to populate
s0..s3.  Implemented by Zig's standard library (`DefaultPrng.init`), not in
this repository's sources. -/
def expandSeed (seed : Nat) : GeneratorState :=
  let r0 := splitmix64 (wrap64 seed)
  let r1 := splitmix64 r0.2
  let r2 := splitmix64 r1.2
  let r3 := splitmix64 r2.2
  ⟨r0.1, r1.1, r2.1, r3.1⟩

/-- Modelled from the spec: the bit-generator step (§4.1):
`result = rotl(s1 * 5, 7) * 9` with wrapping 64-bit arithmetic, then
`t = s1 << 17; s2 ^= s0; s3 ^= s1; s1 ^= s2; s0 ^= s3; s2 ^= t;
s3 = rotl(s3, 45)`, performed as a sequence of assignments in that order.
Implemented by Zig's standard library (`DefaultPrng.next`), compiled into the
embedded WASM module, not in this repository's sources. -/
def Xoshiro256.next (st : GeneratorState) : Nat × GeneratorState :=
  let result := wrap64 (rotl64 (wrap64 (st.s1 * 5)) 7 * 9)
  let t := wrap64 (st.s1 <<< 17)
  let a2 := st.s2 ^^^ st.s0
  let a3 := st.s3 ^^^ st.s1
  let a1 := st.s1 ^^^ a2
  let a0 := st.s0 ^^^ a3
  let b2 := a2 ^^^ t
  let b3 := rotl64 a3 45
  (result, ⟨a0, a1, b2, b3⟩)

/-- Modelled from the spec: §4.3 — the 64-bit derived value returns the bit
generator's word unmodified (the Zig source's `prng.random().int(u64)`). -/
def randomIntU64 (st : GeneratorState) : Nat × GeneratorState := Xoshiro256.next st

/-- Modelled from the spec: §4.3 — `nextF64` takes the high 53 bits of a
freshly generated 64-bit word and scales them to `[0,1)` via division by 2^53
(the Zig source's `prng.random().float(f64)`).  The produced binary64 values
are dyadic rationals with 53-bit numerators, all exactly representable, so the
value is modelled as an exact rational. -/
def randomFloat64 (st : GeneratorState) : ℚ × GeneratorState :=
  let r := Xoshiro256.next st
  (((r.1 >>> 11 : Nat) : ℚ) / 2 ^ 53, r.2)

/-- Modelled from the spec: §4.3 — the bounded-range derived value (the Zig
source's `prng.random().intRangeAtMost(u32, min, max)`).  If `min > max` it
returns `min` without drawing from the generator; for `min ≤ max` it draws one
64-bit word and reduces it into `[min, max]` (the exact reduction scheme is an
implementation detail per §9; a single-draw reduction is modelled). -/
def intRangeAtMost (lo hi : Nat) (st : GeneratorState) : Nat × GeneratorState :=
  if hi < lo then (lo, st)
  else
    let r := Xoshiro256.next st
    (lo + r.1 % (hi - lo + 1), r.2)

/-- A pool slot: empty or an owned generator state (one cell of the Zig
source's `instances: [MAX_INSTANCES]?std.Random.DefaultPrng`). -/
abbrev Slot := Option GeneratorState

/-- The fixed-capacity instance pool (the Zig source's `instances` array). -/
abbrev Pool := List Slot

/-- `MAX_INSTANCES` from the Zig source. -/
def MAX_INSTANCES : Nat := 256

/-- The pool at module load: all 256 slots empty. -/
def emptyPool : Pool := List.replicate MAX_INSTANCES none

/-- Index of the first empty slot in index order (the scan loop of the Zig
source's `create`). -/
def firstEmpty : Pool → Option Nat
  | [] => none
  | none :: _ => some 0
  | some _ :: rest => (firstEmpty rest).map (· + 1)

/-- `create` from the Zig source: store the expanded seed in the first empty
slot and return its index, or return -1 when no slot is available. -/
def create (s : Nat) (p : Pool) : Int × Pool :=
  match firstEmpty p with
  | some i => ((i : Int), p.set i (some (expandSeed s)))
  | none => (-1, p)

/-- `destroy` from the Zig source: clear the slot when the handle is in
bounds; out-of-range handles are ignored. -/
def destroy (handle : Int) (p : Pool) : Pool :=
  if 0 ≤ handle ∧ handle < (MAX_INSTANCES : Int) then p.set handle.toNat none else p

/-- `nextU64` from the Zig source: when the handle is in bounds and the slot
is occupied, draw a 64-bit word and store the advanced state; otherwise return
0 and leave the pool unchanged. -/
def nextU64 (handle : Int) (p : Pool) : Nat × Pool :=
  if 0 ≤ handle ∧ handle < (MAX_INSTANCES : Int) then
    match p[handle.toNat]? with
    | some (some st) =>
      let r := randomIntU64 st
      (r.1, p.set handle.toNat (some r.2))
    | _ => (0, p)
  else (0, p)

/-- `nextF64` from the Zig source: when the handle is in bounds and the slot
is occupied, draw a float in `[0,1)` and store the advanced state; otherwise
return 0 and leave the pool unchanged. -/
def nextF64 (handle : Int) (p : Pool) : ℚ × Pool :=
  if 0 ≤ handle ∧ handle < (MAX_INSTANCES : Int) then
    match p[handle.toNat]? with
    | some (some st) =>
      let r := randomFloat64 st
      (r.1, p.set handle.toNat (some r.2))
    | _ => (0, p)
  else (0, p)

/-- `nextU32Range` from the Zig source: when the handle is in bounds and the
slot is occupied, delegate to the bounded-range derived value and store the
resulting state; otherwise return `min` and leave the pool unchanged. -/
def nextU32Range (handle : Int) (lo hi : Nat) (p : Pool) : Nat × Pool :=
  if 0 ≤ handle ∧ handle < (MAX_INSTANCES : Int) then
    match p[handle.toNat]? with
    | some (some st) =>
      let r := intRangeAtMost lo hi st
      (r.1, p.set handle.toNat (some r.2))
    | _ => (lo, p)
  else (lo, p)

/-- The wrapper's registry of WASM instances (the TS source's `instances`
array of pools). -/
abbrev Registry := List Pool

/-- The scan loop shared by `Prng.create` and `Prng.createAsync` in the TS
wrapper: try `create` on each pool in creation order; return the
(pool index, handle) pair of the first successful allocation, or `none` when
every pool is full, together with the pool list after the attempts. -/
def Prng.createAux (seed : Nat) : List Pool → Option (Nat × Nat) × List Pool
  | [] => (none, [])
  | p :: ps =>
    let r := create seed p
    if 0 ≤ r.1 then (some (0, r.1.toNat), r.2 :: ps)
    else
      let rest := Prng.createAux seed ps
      (rest.1.map fun kh => (kh.1 + 1, kh.2), r.2 :: rest.2)

/-- `Prng.create` (static) from the TS wrapper: scan the existing pools in
creation order; `none` in the first component models the thrown
"No PRNG slots available" (NoCapacity) error. -/
def Prng.create (seed : Nat) (r : Registry) : Option (Nat × Nat) × Registry :=
  Prng.createAux seed r

/-- The registry at module load: one WASM instance is created eagerly. -/
def freshRegistry : Registry := [emptyPool]

/-- Allocation into a freshly instantiated pool (the `createWasmInstance`
followed by `newInst.create` step of `Prng.createAsync`). -/
def createInFresh (seed : Nat) : Int × Pool := create seed emptyPool

/-- `Prng.createAsync` from the TS wrapper: scan the existing pools as
`Prng.create` does; when all are full, instantiate a fresh pool, append it to
the registry and allocate into it.  `none` models the throw on a failed
allocation in the new pool. -/
def Prng.createAsync (seed : Nat) (r : Registry) : Option ((Nat × Nat) × Registry) :=
  match Prng.createAux seed r with
  | (some kh, r') => some (kh, r')
  | (none, r') =>
    let c := createInFresh seed
    if 0 ≤ c.1 then some ((r'.length, c.1.toNat), r' ++ [c.2])
    else none

/-- `Prng.createAsync` iterated over a list of seeds, threading the registry;
fails when any single call fails. -/
def Prng.createAsyncN : List Nat → Registry → Option (List (Nat × Nat) × Registry)
  | [], r => some ([], r)
  | s :: rest, r =>
    match Prng.createAsync s r with
    | some (kh, r') =>
      match Prng.createAsyncN rest r' with
      | some (khs, r'') => some (kh :: khs, r'')
      | none => none
    | none => none

/-- One draw operation against a handle, with fixed arguments. -/
inductive DrawOp where
  | u64 : DrawOp
  | f64 : DrawOp
  | range : Nat → Nat → DrawOp

/-- The observable output of one draw operation. -/
inductive DrawOut where
  | uval : Nat → DrawOut
  | fval : ℚ → DrawOut
deriving DecidableEq

/-- Run a fixed sequence of draw operations against one handle, returning the
observed outputs and the final pool. -/
def runDraws : List DrawOp → Int → Pool → List DrawOut × Pool
  | [], _, p => ([], p)
  | .u64 :: ops, h, p =>
    let r := nextU64 h p
    let rest := runDraws ops h r.2
    (.uval r.1 :: rest.1, rest.2)
  | .f64 :: ops, h, p =>
    let r := nextF64 h p
    let rest := runDraws ops h r.2
    (.fval r.1 :: rest.1, rest.2)
  | .range a b :: ops, h, p =>
    let r := nextU32Range h a b p
    let rest := runDraws ops h r.2
    (.uval r.1 :: rest.1, rest.2)

/-- A pool is full when every slot is occupied. -/
def poolFull (p : Pool) : Prop := ∀ o ∈ p, o.isSome

/-- Occupancy counter describing registry evolution under `Prng.createAsync`:
from `q` completely full pools followed by one pool with `k` occupied slots,
one allocation yields the next such pair. -/
def stepCount : Nat × Nat → Nat × Nat
  | (q, k) => if k < MAX_INSTANCES then (q, k + 1) else (q + 1, 1)

/-- Iterated `stepCount`. -/
def stepCountN : Nat → Nat × Nat → Nat × Nat
  | 0, c => c
  | n + 1, c => stepCountN n (stepCount c)

/-- A pool of full capacity whose first `k` slots are occupied and whose
remaining slots are empty. -/
def filledTo (k : Nat) (p : Pool) : Prop :=
  p.length = MAX_INSTANCES ∧ (∀ j, j < k → p[j]? ≠ some none) ∧
  (∀ j, k ≤ j → j < MAX_INSTANCES → p[j]? = some none)

/-- The registry shapes reachable by pure allocation: `q` completely filled
pools followed by one pool whose first `k` slots are occupied. -/
def regShape (q k : Nat) (r : Registry) : Prop :=
  ∃ fulls last, r = fulls ++ [last] ∧ fulls.length = q ∧
    (∀ p ∈ fulls, filledTo MAX_INSTANCES p) ∧ filledTo k last

/-! ## Basic list lemmas -/

/-- Writing back the value already stored at an index leaves a list unchanged. -/
theorem set_eq_self_of_getElem? {α : Type} :
    ∀ (l : List α) (i : Nat) (x : α), l[i]? = some x → l.set i x = l
  | [], i, x, h => by simp at h
  | a :: l, 0, x, h => by
    simp at h
    simp [List.set, h]
  | a :: l, i + 1, x, h => by
    simp at h
    simp [List.set, set_eq_self_of_getElem? l i x h]

/-! ## Characterization of the first-empty-slot scan -/

/-- If the scan finds index `i`, then `i` is in bounds, slot `i` is empty and
every earlier slot is occupied. -/
theorem firstEmpty_some :
    ∀ (p : Pool) (i : Nat), firstEmpty p = some i →
      i < p.length ∧ p[i]? = some none ∧ ∀ j, j < i → ∃ st, p[j]? = some (some st)
  | [], i, h => by simp [firstEmpty] at h
  | none :: rest, i, h => by
    simp [firstEmpty] at h
    subst h
    refine ⟨by simp, by simp, fun j hj => absurd hj (Nat.not_lt_zero j)⟩
  | some st :: rest, i, h => by
    simp [firstEmpty] at h
    obtain ⟨i', hi', rfl⟩ := h
    obtain ⟨hlen, hempty, hocc⟩ := firstEmpty_some rest i' hi'
    refine ⟨by simpa using Nat.succ_lt_succ hlen, by simpa using hempty, ?_⟩
    intro j hj
    cases j with
    | zero => exact ⟨st, by simp⟩
    | succ j' =>
      obtain ⟨st', hst'⟩ := hocc j' (Nat.lt_of_succ_lt_succ hj)
      exact ⟨st', by simpa using hst'⟩

/-- If the scan finds nothing, every slot is occupied. -/
theorem firstEmpty_none :
    ∀ (p : Pool), firstEmpty p = none → ∀ o ∈ p, o.isSome
  | [], _, o, ho => absurd ho (List.not_mem_nil o)
  | none :: rest, h, o, ho => by simp [firstEmpty] at h
  | some st :: rest, h, o, ho => by
    simp [firstEmpty] at h
    rcases List.mem_cons.mp ho with rfl | hmem
    · rfl
    · exact firstEmpty_none rest h o hmem

/-- If every slot is occupied, the scan finds nothing. -/
theorem firstEmpty_of_full :
    ∀ (p : Pool), (∀ o ∈ p, o.isSome) → firstEmpty p = none
  | [], _ => rfl
  | none :: rest, h => by simpa using h none (List.mem_cons_self none rest)
  | some st :: rest, h => by
    simp [firstEmpty]
    exact firstEmpty_of_full rest fun o ho => h o (List.mem_cons_of_mem _ ho)

/-- If slot `k` is empty and every earlier slot is occupied, the scan finds `k`. -/
theorem firstEmpty_intro :
    ∀ (p : Pool) (k : Nat), p[k]? = some none →
      (∀ j, j < k → p[j]? ≠ some none) → firstEmpty p = some k
  | [], k, hk, _ => by simp at hk
  | none :: rest, k, hk, hocc => by
    cases k with
    | zero => rfl
    | succ k' => exact absurd (by simp) (hocc 0 (Nat.succ_pos k'))
  | some st :: rest, k, hk, hocc => by
    cases k with
    | zero => simp at hk
    | succ k' =>
      have := firstEmpty_intro rest k' (by simpa using hk)
        (fun j hj => by simpa using hocc (j + 1) (Nat.succ_lt_succ hj))
      simp [firstEmpty, this]

/-! ## Pool operation lemmas -/

/-- `create` on a completely full pool fails with -1 and changes nothing. -/
theorem create_of_full (s : Nat) (p : Pool) (h : ∀ o ∈ p, o.isSome) :
    create s p = (-1, p) := by
  simp [create, firstEmpty_of_full p h]

/-- A valid natural handle passes the bound check of the pool operations. -/
theorem handle_bounds {i : Nat} (hi : i < MAX_INSTANCES) :
    0 ≤ (i : Int) ∧ (i : Int) < (MAX_INSTANCES : Int) :=
  ⟨Int.natCast_nonneg i, by exact_mod_cast hi⟩

/-- `nextU64` on an occupied slot draws and stores the advanced state. -/
theorem nextU64_occupied (p : Pool) (i : Nat) (st : GeneratorState)
    (hi : i < MAX_INSTANCES) (hocc : p[i]? = some (some st)) :
    nextU64 (i : Int) p = ((randomIntU64 st).1, p.set i (some (randomIntU64 st).2)) := by
  have hb := handle_bounds hi
  simp only [nextU64, if_pos hb, Int.toNat_natCast, hocc]

/-- `nextF64` on an occupied slot draws and stores the advanced state. -/
theorem nextF64_occupied (p : Pool) (i : Nat) (st : GeneratorState)
    (hi : i < MAX_INSTANCES) (hocc : p[i]? = some (some st)) :
    nextF64 (i : Int) p = ((randomFloat64 st).1, p.set i (some (randomFloat64 st).2)) := by
  have hb := handle_bounds hi
  simp only [nextF64, if_pos hb, Int.toNat_natCast, hocc]

/-- `nextU32Range` on an occupied slot draws and stores the advanced state. -/
theorem nextU32Range_occupied (p : Pool) (i : Nat) (st : GeneratorState) (lo hi : Nat)
    (hlt : i < MAX_INSTANCES) (hocc : p[i]? = some (some st)) :
    nextU32Range (i : Int) lo hi p =
      ((intRangeAtMost lo hi st).1, p.set i (some (intRangeAtMost lo hi st).2)) := by
  have hb := handle_bounds hlt
  simp only [nextU32Range, if_pos hb, Int.toNat_natCast, hocc]

/-! ## Claim theorems -/

/-- C1: for every generator state (s0,s1,s2,s3) stored in an occupied slot, a
single `nextU64` draw on that handle returns `rotl(s1 * 5, 7) * 9` under
wrapping 64-bit arithmetic and replaces the stored state by the result of the
assignment sequence `t = s1 << 17; s2 ^= s0; s3 ^= s1; s1 ^= s2; s0 ^= s3;
s2 ^= t; s3 = rotl(s3, 45)` — the Xoshiro256 step, here written with each
new word expressed in terms of the original four words. -/
theorem nextU64_is_xoshiro_step (p : Pool) (i : Nat) (st : GeneratorState)
    (hi : i < MAX_INSTANCES) (hocc : p[i]? = some (some st)) :
    nextU64 (i : Int) p =
      (wrap64 (rotl64 (wrap64 (st.s1 * 5)) 7 * 9),
       p.set i (some ⟨st.s0 ^^^ (st.s3 ^^^ st.s1),
                      st.s1 ^^^ (st.s2 ^^^ st.s0),
                      (st.s2 ^^^ st.s0) ^^^ wrap64 (st.s1 <<< 17),
                      rotl64 (st.s3 ^^^ st.s1) 45⟩)) := by
  rw [nextU64_occupied p i st hi hocc]
  rfl

/-- Witness for C1 at the concrete state (1,2,3,4) stored in slot 0. -/
theorem nextU64_is_xoshiro_step_witness :
    (0 < MAX_INSTANCES ∧
      (emptyPool.set 0 (some ⟨1, 2, 3, 4⟩))[0]? = some (some ⟨1, 2, 3, 4⟩)) ∧
    nextU64 ((0 : Nat) : Int) (emptyPool.set 0 (some ⟨1, 2, 3, 4⟩)) =
      (wrap64 (rotl64 (wrap64 (2 * 5)) 7 * 9),
       (emptyPool.set 0 (some ⟨1, 2, 3, 4⟩)).set 0
         (some ⟨1 ^^^ (4 ^^^ 2), 2 ^^^ (3 ^^^ 1),
                (3 ^^^ 1) ^^^ wrap64 (2 <<< 17), rotl64 (4 ^^^ 2) 45⟩)) :=
  ⟨⟨by decide, rfl⟩,
   nextU64_is_xoshiro_step (emptyPool.set 0 (some ⟨1, 2, 3, 4⟩)) 0 ⟨1, 2, 3, 4⟩
     (by decide) rfl⟩

/-- C3: for every handle and all 32-bit arguments with `min > max`,
`nextU32Range` returns `min` and does not draw from the generator: the pool,
and in particular the stored generator state, is unchanged. -/
theorem nextU32Range_invalid_range (h : Int) (p : Pool) (lo hi : Nat)
    (hlo : lo < 2 ^ 32) (hhi : hi < 2 ^ 32) (hinv : hi < lo) :
    nextU32Range h lo hi p = (lo, p) := by
  unfold nextU32Range
  by_cases hb : 0 ≤ h ∧ h < (MAX_INSTANCES : Int)
  · rw [if_pos hb]
    rcases hslot : p[h.toNat]? with _ | (_ | st)
    · rfl
    · rfl
    · simp only [intRangeAtMost, if_pos hinv]
      exact congrArg (Prod.mk lo) (set_eq_self_of_getElem? p h.toNat (some st) hslot)
  · rw [if_neg hb]

/-- Witness for C3: an occupied slot, `min = 20 > max = 10`. -/
theorem nextU32Range_invalid_range_witness :
    (20 < 2 ^ 32 ∧ 10 < 2 ^ 32 ∧ 10 < 20) ∧
    nextU32Range 0 20 10 (emptyPool.set 0 (some ⟨1, 2, 3, 4⟩)) =
      (20, emptyPool.set 0 (some ⟨1, 2, 3, 4⟩)) :=
  ⟨⟨by decide, by decide, by decide⟩,
   nextU32Range_invalid_range 0 (emptyPool.set 0 (some ⟨1, 2, 3, 4⟩)) 20 10
     (by decide) (by decide) (by decide)⟩

/-- C4: `create` scans the 256 slots in index order and either stores the
expanded seed in the first empty slot and returns that index (a value in
[0, 255]), or, when every slot is occupied, returns -1 and leaves every slot
unchanged. -/
theorem create_first_free_or_unchanged (s : Nat) (p : Pool)
    (hp : p.length = MAX_INSTANCES) :
    (∃ i, i < MAX_INSTANCES ∧ p[i]? = some none ∧
       (∀ j, j < i → ∃ st, p[j]? = some (some st)) ∧
       create s p = ((i : Int), p.set i (some (expandSeed s)))) ∨
    ((∀ o ∈ p, o.isSome) ∧ create s p = (-1, p)) := by
  rcases hfe : firstEmpty p with _ | i
  · exact Or.inr ⟨firstEmpty_none p hfe, create_of_full s p (firstEmpty_none p hfe)⟩
  · obtain ⟨hlen, hempty, hocc⟩ := firstEmpty_some p i hfe
    exact Or.inl ⟨i, hp ▸ hlen, hempty, hocc, by simp [create, hfe]⟩

/-- Witness for C4 at the all-empty pool. -/
theorem create_first_free_or_unchanged_witness :
    emptyPool.length = MAX_INSTANCES ∧
    ((∃ i, i < MAX_INSTANCES ∧ emptyPool[i]? = some none ∧
       (∀ j, j < i → ∃ st, emptyPool[j]? = some (some st)) ∧
       create 0 emptyPool = ((i : Int), emptyPool.set i (some (expandSeed 0)))) ∨
    ((∀ o ∈ emptyPool, o.isSome) ∧ create 0 emptyPool = (-1, emptyPool))) :=
  ⟨by simp [emptyPool],
   create_first_free_or_unchanged 0 emptyPool (by simp [emptyPool])⟩

/-- C7: every draw against an out-of-range handle or an empty slot (e.g.
after release) returns its documented safe default — 0 for `nextU64`, 0 for
`nextF64` and `min` for `nextU32Range` — and has no side effect on the pool. -/
theorem dead_handle_draws_default (h : Int) (p : Pool)
    (hdead : ¬(0 ≤ h ∧ h < (MAX_INSTANCES : Int)) ∨ p[h.toNat]? = some none) :
    nextU64 h p = (0, p) ∧ nextF64 h p = (0, p) ∧
    ∀ lo hi : Nat, nextU32Range h lo hi p = (lo, p) := by
  rcases hdead with hout | hempty
  · exact ⟨by simp [nextU64, if_neg hout], by simp [nextF64, if_neg hout],
      fun lo hi => by simp [nextU32Range, if_neg hout]⟩
  · refine ⟨?_, ?_, fun lo hi => ?_⟩
    · unfold nextU64
      split
      · rw [hempty]
      · rfl
    · unfold nextF64
      split
      · rw [hempty]
      · rfl
    · unfold nextU32Range
      split
      · rw [hempty]
      · rfl

/-- Witness for C7: slot 0 of the pool obtained by releasing handle 0. -/
theorem dead_handle_draws_default_witness :
    (¬(0 ≤ (0 : Int) ∧ (0 : Int) < (MAX_INSTANCES : Int)) ∨
      (destroy 0 (emptyPool.set 0 (some ⟨1, 2, 3, 4⟩)))[(0 : Int).toNat]? = some none) ∧
    (nextU64 0 (destroy 0 (emptyPool.set 0 (some ⟨1, 2, 3, 4⟩))) =
       (0, destroy 0 (emptyPool.set 0 (some ⟨1, 2, 3, 4⟩))) ∧
     nextF64 0 (destroy 0 (emptyPool.set 0 (some ⟨1, 2, 3, 4⟩))) =
       (0, destroy 0 (emptyPool.set 0 (some ⟨1, 2, 3, 4⟩))) ∧
     ∀ lo hi : Nat, nextU32Range 0 lo hi (destroy 0 (emptyPool.set 0 (some ⟨1, 2, 3, 4⟩))) =
       (lo, destroy 0 (emptyPool.set 0 (some ⟨1, 2, 3, 4⟩)))) :=
  ⟨Or.inr (by decide),
   dead_handle_draws_default 0 (destroy 0 (emptyPool.set 0 (some ⟨1, 2, 3, 4⟩)))
     (Or.inr (by decide))⟩

/-- C8: `destroy` is idempotent and total: an in-bounds handle empties its
slot, an out-of-range handle changes nothing, an already-empty slot is left
as it is with no error signalled, and applying `destroy` twice leaves the
pool exactly as applying it once. -/
theorem destroy_idempotent_total (h : Int) (p : Pool) :
    ((0 ≤ h ∧ h < (MAX_INSTANCES : Int)) → destroy h p = p.set h.toNat none) ∧
    (¬(0 ≤ h ∧ h < (MAX_INSTANCES : Int)) → destroy h p = p) ∧
    (p[h.toNat]? = some none → destroy h p = p) ∧
    destroy h (destroy h p) = destroy h p := by
  refine ⟨fun hb => by simp [destroy, if_pos hb],
    fun hb => by simp [destroy, if_neg hb], fun hempty => ?_, ?_⟩
  · unfold destroy
    split
    · exact set_eq_self_of_getElem? p h.toNat none hempty
    · rfl
  · by_cases hb : 0 ≤ h ∧ h < (MAX_INSTANCES : Int)
    · simp [destroy, if_pos hb, List.set_set]
    · simp [destroy, if_neg hb]

/-- Witness for C8 at handle 0 of a pool whose slot 0 is occupied. -/
theorem destroy_idempotent_total_witness :
    (0 ≤ (0 : Int) ∧ (0 : Int) < (MAX_INSTANCES : Int)) ∧
    destroy 0 (emptyPool.set 0 (some ⟨1, 2, 3, 4⟩)) =
      (emptyPool.set 0 (some ⟨1, 2, 3, 4⟩)).set (0 : Int).toNat none ∧
    destroy 0 (destroy 0 (emptyPool.set 0 (some ⟨1, 2, 3, 4⟩))) =
      destroy 0 (emptyPool.set 0 (some ⟨1, 2, 3, 4⟩)) :=
  ⟨by decide,
   (destroy_idempotent_total 0 (emptyPool.set 0 (some ⟨1, 2, 3, 4⟩))).1 (by decide),
   (destroy_idempotent_total 0 (emptyPool.set 0 (some ⟨1, 2, 3, 4⟩))).2.2.2⟩

/-! ## Determinism of draws -/

/-- The outputs of a draw sequence depend only on the generator state stored
at the handle, not on the handle's index or on the rest of the pool. -/
theorem runDraws_localizes :
    ∀ (ops : List DrawOp) (st : GeneratorState) (i j : Nat) (p q : Pool),
      i < MAX_INSTANCES → j < MAX_INSTANCES →
      p.length = MAX_INSTANCES → q.length = MAX_INSTANCES →
      p[i]? = some (some st) → q[j]? = some (some st) →
      (runDraws ops (i : Int) p).1 = (runDraws ops (j : Int) q).1 := by
  intro ops
  induction ops with
  | nil => intro st i j p q _ _ _ _ _ _; rfl
  | cons op ops ih =>
    intro st i j p q hi hj hp hq hpocc hqocc
    cases op with
    | u64 =>
      simp only [runDraws, nextU64_occupied p i st hi hpocc,
        nextU64_occupied q j st hj hqocc]
      have := ih (randomIntU64 st).2 i j _ _ hi hj
        (by simpa using hp) (by simpa using hq)
        (List.getElem?_set_self (by rw [hp]; exact hi))
        (List.getElem?_set_self (by rw [hq]; exact hj))
      simp [this]
    | f64 =>
      simp only [runDraws, nextF64_occupied p i st hi hpocc,
        nextF64_occupied q j st hj hqocc]
      have := ih (randomFloat64 st).2 i j _ _ hi hj
        (by simpa using hp) (by simpa using hq)
        (List.getElem?_set_self (by rw [hp]; exact hi))
        (List.getElem?_set_self (by rw [hq]; exact hj))
      simp [this]
    | range a b =>
      simp only [runDraws, nextU32Range_occupied p i st a b hi hpocc,
        nextU32Range_occupied q j st a b hj hqocc]
      have := ih (intRangeAtMost a b st).2 i j _ _ hi hj
        (by simpa using hp) (by simpa using hq)
        (List.getElem?_set_self (by rw [hp]; exact hi))
        (List.getElem?_set_self (by rw [hq]; exact hj))
      simp [this]

/-- A successful `create` stores the expanded seed at the returned handle. -/
theorem create_success_spec (s : Nat) (p : Pool) (hs : 0 ≤ (create s p).1) :
    ∃ i, i < p.length ∧ (create s p).1 = (i : Int) ∧
      (create s p).2 = p.set i (some (expandSeed s)) ∧
      (create s p).2[i]? = some (some (expandSeed s)) := by
  rcases hfe : firstEmpty p with _ | i
  · simp [create, hfe] at hs
  · obtain ⟨hlen, _, _⟩ := firstEmpty_some p i hfe
    exact ⟨i, hlen, by simp [create, hfe], by simp [create, hfe],
      by simp [create, hfe, List.getElem?_set_self hlen]⟩

/-- C2: two generators independently created with the same seed produce
element-for-element identical outputs for any fixed sequence of draw
operations (any mix of `nextU64`, `nextF64`, `nextU32Range` with fixed
arguments). -/
theorem create_same_seed_deterministic (s : Nat) (ops : List DrawOp) (p q : Pool)
    (hp : p.length = MAX_INSTANCES) (hq : q.length = MAX_INSTANCES)
    (hps : 0 ≤ (create s p).1) (hqs : 0 ≤ (create s q).1) :
    (runDraws ops (create s p).1 (create s p).2).1 =
      (runDraws ops (create s q).1 (create s q).2).1 := by
  obtain ⟨i, hilen, hieq, hiset, hiocc⟩ := create_success_spec s p hps
  obtain ⟨j, hjlen, hjeq, hjset, hjocc⟩ := create_success_spec s q hqs
  rw [hieq, hjeq]
  exact runDraws_localizes ops (expandSeed s) i j _ _
    (hp ▸ hilen) (hq ▸ hjlen)
    (by rw [hiset, List.length_set, hp]) (by rw [hjset, List.length_set, hq])
    hiocc hjocc

/-- Witness for C2: the spec's example sequence, seed 42, two fresh pools. -/
theorem create_same_seed_deterministic_witness :
    (emptyPool.length = MAX_INSTANCES ∧ 0 ≤ (create 42 emptyPool).1) ∧
    (runDraws [.u64, .f64, .range 0 1000, .u64, .f64]
        (create 42 emptyPool).1 (create 42 emptyPool).2).1 =
      (runDraws [.u64, .f64, .range 0 1000, .u64, .f64]
        (create 42 emptyPool).1 (create 42 emptyPool).2).1 :=
  ⟨⟨by simp [emptyPool], by decide⟩,
   create_same_seed_deterministic 42 [.u64, .f64, .range 0 1000, .u64, .f64]
     emptyPool emptyPool (by simp [emptyPool]) (by simp [emptyPool])
     (by decide) (by decide)⟩

/-! ## Float derived value -/

/-- The bit generator always produces a word below 2^64. -/
theorem next_fst_lt (st : GeneratorState) : (Xoshiro256.next st).1 < 2 ^ 64 := by
  simp only [Xoshiro256.next, wrap64]
  exact Nat.mod_lt _ (by norm_num)

/-- The high 53 bits of a 64-bit word form a number below 2^53. -/
theorem high53_lt (w : Nat) (hw : w < 2 ^ 64) : w >>> 11 < 2 ^ 53 := by
  rw [Nat.shiftRight_eq_div_pow]
  exact Nat.div_lt_of_lt_mul (by norm_num at hw ⊢; omega)

/-- C9: on an occupied handle, `nextF64` returns exactly the high 53 bits of
the freshly generated 64-bit word divided by 2^53; consequently the value lies
in [0, 1) and is never 1.  Moreover 0 is a possible return value of the
derived float function. -/
theorem nextF64_high53_bits (p : Pool) (i : Nat) (st : GeneratorState)
    (hi : i < MAX_INSTANCES) (hocc : p[i]? = some (some st)) :
    ((nextF64 (i : Int) p).1 = (((Xoshiro256.next st).1 >>> 11 : Nat) : ℚ) / 2 ^ 53 ∧
      0 ≤ (nextF64 (i : Int) p).1 ∧ (nextF64 (i : Int) p).1 < 1 ∧
      (nextF64 (i : Int) p).1 ≠ 1) ∧
    ∃ st0 : GeneratorState, (randomFloat64 st0).1 = 0 := by
  have heq : (nextF64 (i : Int) p).1 = (((Xoshiro256.next st).1 >>> 11 : Nat) : ℚ) / 2 ^ 53 := by
    rw [nextF64_occupied p i st hi hocc]
    rfl
  have hlt1 : (nextF64 (i : Int) p).1 < 1 := by
    rw [heq]
    rw [div_lt_one (by positivity)]
    have h53 := high53_lt (Xoshiro256.next st).1 (next_fst_lt st)
    calc (((Xoshiro256.next st).1 >>> 11 : Nat) : ℚ)
        < ((2 ^ 53 : Nat) : ℚ) := by exact_mod_cast h53
      _ = 2 ^ 53 := by norm_num
  refine ⟨⟨heq, ?_, hlt1, ne_of_lt hlt1⟩, ⟨1, 0, 0, 0⟩, ?_⟩
  · rw [heq]
    positivity
  · show (((Xoshiro256.next ⟨1, 0, 0, 0⟩).1 >>> 11 : Nat) : ℚ) / 2 ^ 53 = 0
    norm_num [Xoshiro256.next, wrap64, rotl64]

/-- Witness for C9 at the concrete state (1,2,3,4) stored in slot 0. -/
theorem nextF64_high53_bits_witness :
    (0 < MAX_INSTANCES ∧
      (emptyPool.set 0 (some ⟨1, 2, 3, 4⟩))[0]? = some (some ⟨1, 2, 3, 4⟩)) ∧
    (((nextF64 ((0 : Nat) : Int) (emptyPool.set 0 (some ⟨1, 2, 3, 4⟩))).1 =
        (((Xoshiro256.next ⟨1, 2, 3, 4⟩).1 >>> 11 : Nat) : ℚ) / 2 ^ 53 ∧
      0 ≤ (nextF64 ((0 : Nat) : Int) (emptyPool.set 0 (some ⟨1, 2, 3, 4⟩))).1 ∧
      (nextF64 ((0 : Nat) : Int) (emptyPool.set 0 (some ⟨1, 2, 3, 4⟩))).1 < 1 ∧
      (nextF64 ((0 : Nat) : Int) (emptyPool.set 0 (some ⟨1, 2, 3, 4⟩))).1 ≠ 1) ∧
     ∃ st0 : GeneratorState, (randomFloat64 st0).1 = 0) :=
  ⟨⟨by decide, rfl⟩,
   nextF64_high53_bits (emptyPool.set 0 (some ⟨1, 2, 3, 4⟩)) 0 ⟨1, 2, 3, 4⟩
     (by decide) rfl⟩

/-! ## Registry scan lemmas -/

/-- A failed `create` can only happen on a full pool, and changes nothing. -/
theorem create_neg_full (seed : Nat) (p : Pool) (h : ¬ 0 ≤ (create seed p).1) :
    poolFull p ∧ create seed p = (-1, p) := by
  rcases hfe : firstEmpty p with _ | i
  · exact ⟨firstEmpty_none p hfe, by simp [create, hfe]⟩
  · exact absurd (by simp [create, hfe]) h

/-- The wrapper scan on a registry of full pools finds nothing and leaves
every pool unchanged. -/
theorem createAux_all_full (seed : Nat) :
    ∀ (ps : List Pool), (∀ p ∈ ps, poolFull p) → Prng.createAux seed ps = (none, ps)
  | [], _ => rfl
  | p :: ps, h => by
    have hfull : poolFull p := h p (List.mem_cons_self p ps)
    have hcr : create seed p = (-1, p) := create_of_full seed p hfull
    have hrest := createAux_all_full seed ps fun x hx => h x (List.mem_cons_of_mem _ hx)
    simp [Prng.createAux, hcr, hrest]

/-- A successful wrapper scan returns the first pool with a free slot: all
earlier pools are full, the allocation happens by `create` in pool `k`, and
only pool `k` changes. -/
theorem createAux_ok (seed : Nat) :
    ∀ (ps : List Pool) (k h : Nat) (ps' : List Pool),
      Prng.createAux seed ps = (some (k, h), ps') →
      ∃ pk, k < ps.length ∧ (∀ m, m < k → poolFull (ps.getD m [])) ∧
        create seed (ps.getD k []) = (((h : Nat) : Int), pk) ∧ ps' = ps.set k pk
  | [], k, h, ps', heq => by simp [Prng.createAux] at heq
  | p :: ps, k, h, ps', heq => by
    by_cases hok : 0 ≤ (create seed p).1
    · simp only [Prng.createAux, if_pos hok] at heq
      rw [Prod.mk.injEq, Option.some.injEq, Prod.mk.injEq] at heq
      obtain ⟨⟨hk, hh⟩, hps'⟩ := heq
      refine ⟨(create seed p).2, by simp [← hk], ?_, ?_, ?_⟩
      · intro m hm; rw [← hk] at hm; exact absurd hm (Nat.not_lt_zero m)
      · rw [← hk, ← hh]
        simp [Int.toNat_of_nonneg hok]
      · rw [← hk, ← hps']
        rfl
    · obtain ⟨hfull, hcr⟩ := create_neg_full seed p hok
      simp only [Prng.createAux, if_neg hok] at heq
      rcases haux : (Prng.createAux seed ps).1 with _ | kh
      · rw [haux] at heq; simp at heq
      · rw [haux] at heq
        simp only [Option.map_some'] at heq
        have hk : kh.1 + 1 = k := by
          have := congrArg Prod.fst heq
          simp at this
          exact this.1
        have hh : kh.2 = h := by
          have := congrArg Prod.fst heq
          simp at this
          exact this.2
        have hps' : ps' = (create seed p).2 :: (Prng.createAux seed ps).2 :=
          (congrArg Prod.snd heq).symm
        obtain ⟨pk, hlen, hpre, hck, hset⟩ :=
          createAux_ok seed ps kh.1 kh.2 (Prng.createAux seed ps).2
            (by rw [← haux])
        refine ⟨pk, ?_, ?_, ?_, ?_⟩
        · rw [← hk]; simpa using Nat.succ_lt_succ hlen
        · intro m hm
          rw [← hk] at hm
          cases m with
          | zero => simpa using hfull
          | succ m' => simpa using hpre m' (Nat.lt_of_succ_lt_succ hm)
        · rw [← hk, ← hh]; simpa using hck
        · rw [hps', ← hk, hset, hcr]
          rfl

/-- C5: `Prng.create` (createSync) tries the pools strictly in creation order
and returns a handle in the first pool whose `create` succeeds, rewriting only
that pool; when every existing pool is full it fails (models the thrown
NoCapacity error) and leaves the registry's pool sequence unchanged, creating
no new pool. -/
theorem prng_create_first_pool_or_no_capacity (seed : Nat) (r : Registry) :
    ((∀ p ∈ r, poolFull p) → Prng.create seed r = (none, r)) ∧
    (∀ k h r', Prng.create seed r = (some (k, h), r') →
      ∃ pk, k < r.length ∧ (∀ m, m < k → poolFull (r.getD m [])) ∧
        create seed (r.getD k []) = (((h : Nat) : Int), pk) ∧
        r' = r.set k pk ∧ r'.length = r.length) := by
  refine ⟨fun hfull => createAux_all_full seed r hfull, fun k h r' heq => ?_⟩
  obtain ⟨pk, hlen, hpre, hck, hset⟩ := createAux_ok seed r k h r' heq
  exact ⟨pk, hlen, hpre, hck, hset, by rw [hset, List.length_set]⟩

/-- Witness for C5: a success on the fresh registry and a NoCapacity failure
on a registry holding one completely full pool. -/
theorem prng_create_first_pool_or_no_capacity_witness :
    (Prng.create 5 freshRegistry =
        (some (0, 0), [emptyPool.set 0 (some (expandSeed 5))]) ∧
      ∃ pk, 0 < freshRegistry.length ∧
        (∀ m, m < 0 → poolFull (freshRegistry.getD m [])) ∧
        create 5 (freshRegistry.getD 0 []) = (((0 : Nat) : Int), pk) ∧
        [emptyPool.set 0 (some (expandSeed 5))] = freshRegistry.set 0 pk ∧
        ([emptyPool.set 0 (some (expandSeed 5))] : Registry).length =
          freshRegistry.length) ∧
    ((∀ p ∈ ([List.replicate 256 (some ⟨1, 2, 3, 4⟩)] : Registry), poolFull p) ∧
      Prng.create 7 [List.replicate 256 (some ⟨1, 2, 3, 4⟩)] =
        (none, [List.replicate 256 (some ⟨1, 2, 3, 4⟩)])) :=
  ⟨⟨rfl, (prng_create_first_pool_or_no_capacity 5 freshRegistry).2 0 0
      [emptyPool.set 0 (some (expandSeed 5))] rfl⟩,
   by
    have hfull : ∀ p ∈ ([List.replicate 256 (some ⟨1, 2, 3, 4⟩)] : Registry), poolFull p := by
      intro p hp
      rw [List.mem_singleton] at hp
      subst hp
      intro o ho
      rw [List.eq_of_mem_replicate ho]
      rfl
    exact ⟨hfull, (prng_create_first_pool_or_no_capacity 7 _).1 hfull⟩⟩

/-! ## Draws on an empty slot -/

/-- Draws against a handle whose slot is empty return the safe defaults and
leave the pool unchanged. -/
theorem draws_default_of_empty (h : Int) (p : Pool)
    (hempty : p[h.toNat]? = some none) :
    nextU64 h p = (0, p) ∧ nextF64 h p = (0, p) ∧
    ∀ lo hi : Nat, nextU32Range h lo hi p = (lo, p) := by
  refine ⟨?_, ?_, fun lo hi => ?_⟩
  · unfold nextU64
    split
    · rw [hempty]
    · rfl
  · unfold nextF64
    split
    · rw [hempty]
    · rfl
  · unfold nextU32Range
    split
    · rw [hempty]
    · rfl

/-- C10: the wrapper's `destroy` does not invalidate its stored handle.  If a
generator at slot `i` is released and a later `create` reallocates slot `i`
to a different generator (which it does whenever every slot before `i` is
still occupied), then a second `destroy` through the stale handle empties the
new generator's slot, and its subsequent draws all return the safe defaults. -/
theorem stale_destroy_empties_reallocated_slot (p : Pool) (i : Nat) (s2 : Nat)
    (hp : p.length = MAX_INSTANCES) (hi : i < MAX_INSTANCES)
    (hocc : ∀ j, j ≤ i → p[j]? ≠ some none) :
    (create s2 (destroy (i : Int) p)).1 = (i : Int) ∧
    destroy (i : Int) (create s2 (destroy (i : Int) p)).2 =
      (create s2 (destroy (i : Int) p)).2.set i none ∧
    (nextU64 (i : Int) (destroy (i : Int) (create s2 (destroy (i : Int) p)).2) =
       (0, destroy (i : Int) (create s2 (destroy (i : Int) p)).2) ∧
     nextF64 (i : Int) (destroy (i : Int) (create s2 (destroy (i : Int) p)).2) =
       (0, destroy (i : Int) (create s2 (destroy (i : Int) p)).2) ∧
     ∀ lo hi2 : Nat,
       nextU32Range (i : Int) lo hi2
           (destroy (i : Int) (create s2 (destroy (i : Int) p)).2) =
         (lo, destroy (i : Int) (create s2 (destroy (i : Int) p)).2)) := by
  have hb := handle_bounds hi
  have hilen : i < p.length := by rw [hp]; exact hi
  have hdes : destroy (i : Int) p = p.set i none := by
    unfold destroy
    rw [if_pos hb, Int.toNat_natCast]
  have hfe : firstEmpty (p.set i none) = some i := by
    refine firstEmpty_intro _ i (List.getElem?_set_self hilen) fun j hj => ?_
    rw [List.getElem?_set_ne (Nat.ne_of_lt hj).symm]
    exact hocc j (Nat.le_of_lt hj)
  have hcr : create s2 (destroy (i : Int) p) =
      ((i : Int), (p.set i none).set i (some (expandSeed s2))) := by
    rw [hdes]
    simp [create, hfe]
  have hlen2 : i < (create s2 (destroy (i : Int) p)).2.length := by
    rw [hcr]
    simpa using hilen
  have hdes2 : destroy (i : Int) (create s2 (destroy (i : Int) p)).2 =
      (create s2 (destroy (i : Int) p)).2.set i none := by
    unfold destroy
    rw [if_pos hb, Int.toNat_natCast]
  have hempty : (destroy (i : Int) (create s2 (destroy (i : Int) p)).2)[(i : Int).toNat]? =
      some none := by
    rw [hdes2]
    simpa using List.getElem?_set_self hlen2
  refine ⟨by rw [hcr], hdes2, draws_default_of_empty _ _ hempty⟩

/-- Witness for C10 at slot 0 of a pool whose slot 0 is occupied. -/
theorem stale_destroy_empties_reallocated_slot_witness :
    ((emptyPool.set 0 (some ⟨1, 2, 3, 4⟩) : Pool).length = MAX_INSTANCES ∧
      0 < MAX_INSTANCES ∧
      (∀ j, j ≤ 0 → (emptyPool.set 0 (some ⟨1, 2, 3, 4⟩))[j]? ≠ some none)) ∧
    (create 9 (destroy ((0 : Nat) : Int) (emptyPool.set 0 (some ⟨1, 2, 3, 4⟩)))).1 =
      ((0 : Nat) : Int) :=
  ⟨⟨by simp [emptyPool], by decide, by decide⟩,
   (stale_destroy_empties_reallocated_slot (emptyPool.set 0 (some ⟨1, 2, 3, 4⟩)) 0 9
     (by simp [emptyPool]) (by decide) (by decide)).1⟩

/-! ## Registry expansion -/

/-- A completely filled pool is full. -/
theorem filledTo_max_poolFull (p : Pool) (h : filledTo MAX_INSTANCES p) :
    poolFull p := by
  obtain ⟨hlen, hocc, _⟩ := h
  intro o ho
  obtain ⟨n, hn⟩ := List.mem_iff_getElem?.mp ho
  have hnlen : n < p.length := (List.getElem?_eq_some_iff.mp hn).1
  have : p[n]? ≠ some none := hocc n (by rw [← hlen]; exact hnlen)
  rw [hn] at this
  cases o with
  | none => exact absurd rfl this
  | some st => rfl

/-- The all-empty pool is filled to 0. -/
theorem filledTo_zero_emptyPool : filledTo 0 emptyPool := by
  refine ⟨by simp [emptyPool], fun j hj => absurd hj (Nat.not_lt_zero j), fun j _ hj => ?_⟩
  simp [emptyPool, List.getElem?_replicate_of_lt hj]

/-- Storing a state in slot `k` of a pool filled to `k` fills it to `k + 1`. -/
theorem filledTo_set (p : Pool) (k : Nat) (hk : k < MAX_INSTANCES)
    (hfill : filledTo k p) (st : GeneratorState) :
    filledTo (k + 1) (p.set k (some st)) := by
  obtain ⟨hlen, hocc, hemp⟩ := hfill
  refine ⟨by simp [hlen], fun j hj => ?_, fun j hle hj => ?_⟩
  · rcases Nat.lt_or_ge j k with hjk | hjk
    · rw [List.getElem?_set_ne (Nat.ne_of_lt hjk).symm]
      exact hocc j hjk
    · have : j = k := Nat.le_antisymm (Nat.lt_succ_iff.mp hj) hjk
      subst this
      rw [List.getElem?_set_self (by rw [hlen]; exact hk)]
      simp
  · rw [List.getElem?_set_ne (by omega)]
    exact hemp j (by omega) hj

/-- A pool filled to `k < 256` has first empty slot `k`, so `create` succeeds
there. -/
theorem create_filledTo (seed : Nat) (p : Pool) (k : Nat)
    (hk : k < MAX_INSTANCES) (hfill : filledTo k p) :
    create seed p = (((k : Nat) : Int), p.set k (some (expandSeed seed))) := by
  obtain ⟨hlen, hocc, hemp⟩ := hfill
  have hfe : firstEmpty p = some k :=
    firstEmpty_intro p k (hemp k (Nat.le_refl k) hk) hocc
  simp [create, hfe]

/-- The wrapper scan skips any prefix of full pools. -/
theorem createAux_full_prefix (seed : Nat) :
    ∀ (fulls rest : List Pool), (∀ p ∈ fulls, poolFull p) →
      Prng.createAux seed (fulls ++ rest) =
        ((Prng.createAux seed rest).1.map fun kh => (kh.1 + fulls.length, kh.2),
         fulls ++ (Prng.createAux seed rest).2)
  | [], rest, _ => by
    rcases haux : (Prng.createAux seed rest).1 with _ | kh
    · simp only [List.nil_append, haux, Option.map_none', List.length_nil]
      rw [← haux]
    · simp only [List.nil_append, haux, Option.map_some', List.length_nil,
        Nat.add_zero]
      rw [← haux]
  | p :: fulls, rest, h => by
    have hfull : poolFull p := h p (List.mem_cons_self p fulls)
    have hcr : create seed p = (-1, p) := create_of_full seed p hfull
    have hrec := createAux_full_prefix seed fulls rest
      fun x hx => h x (List.mem_cons_of_mem _ hx)
    have hneg : ¬ (0 : Int) ≤ (create seed p).1 := by
      rw [hcr]
      show ¬ (0 : Int) ≤ -1
      decide
    have hstep : Prng.createAux seed ((p :: fulls) ++ rest) =
        ((Prng.createAux seed (fulls ++ rest)).1.map fun kh => (kh.1 + 1, kh.2),
         (create seed p).2 :: (Prng.createAux seed (fulls ++ rest)).2) := by
      rw [List.cons_append]
      simp only [Prng.createAux, if_neg hneg]
    rw [hstep, hrec, hcr]
    rcases haux : (Prng.createAux seed rest).1 with _ | kh
    · rfl
    · simp only [Option.map_some', List.length_cons]
      refine congrArg₂ Prod.mk ?_ rfl
      simp [Nat.add_assoc, Nat.add_comm 1]

/-- One `Prng.createAsync` call on a shaped registry: it always succeeds and
moves the occupancy counter one `stepCount` step. -/
theorem createAsync_shape_step (seed q k : Nat) (r : Registry)
    (hk : k ≤ MAX_INSTANCES) (hshape : regShape q k r) :
    ∃ kh r', Prng.createAsync seed r = some (kh, r') ∧
      regShape (stepCount (q, k)).1 (stepCount (q, k)).2 r' ∧
      (stepCount (q, k)).2 ≤ MAX_INSTANCES ∧
      r'.length = (stepCount (q, k)).1 + 1 := by
  obtain ⟨fulls, last, rfl, hq, hfulls, hlast⟩ := hshape
  have hfullsFull : ∀ p ∈ fulls, poolFull p :=
    fun p hp => filledTo_max_poolFull p (hfulls p hp)
  rcases Nat.lt_or_ge k MAX_INSTANCES with hklt | hkge
  · -- free slot in the last pool: allocation lands there
    have hcr := create_filledTo seed last k hklt hlast
    have haux1 : Prng.createAux seed [last] =
        (some (0, k), [last.set k (some (expandSeed seed))]) := by
      simp [Prng.createAux, hcr, Int.natCast_nonneg]
    have haux := createAux_full_prefix seed fulls [last] hfullsFull
    rw [haux1] at haux
    refine ⟨(0 + fulls.length, k), fulls ++ [last.set k (some (expandSeed seed))],
      ?_, ?_, ?_, ?_⟩
    · unfold Prng.createAsync
      rw [haux]
      rfl
    · simp only [stepCount, if_pos hklt]
      exact ⟨fulls, last.set k (some (expandSeed seed)), rfl, hq, hfulls,
        filledTo_set last k hklt hlast (expandSeed seed)⟩
    · simp only [stepCount, if_pos hklt]
      exact hklt
    · simp only [stepCount, if_pos hklt]
      simp [hq]
  · -- every pool full: a fresh pool is appended and slot 0 allocated
    have hkeq : k = MAX_INSTANCES := Nat.le_antisymm hk hkge
    subst hkeq
    have hall : ∀ p ∈ fulls ++ [last], poolFull p := by
      intro p hp
      rcases List.mem_append.mp hp with hp | hp
      · exact hfullsFull p hp
      · rw [List.mem_singleton.mp hp]
        exact filledTo_max_poolFull last hlast
    have haux := createAux_all_full seed (fulls ++ [last]) hall
    have hfresh : createInFresh seed =
        ((0 : Int), emptyPool.set 0 (some (expandSeed seed))) := by
      have h0 : (0 : Nat) < MAX_INSTANCES := by decide
      simpa using create_filledTo seed emptyPool 0 h0 filledTo_zero_emptyPool
    refine ⟨((fulls ++ [last]).length, 0),
      (fulls ++ [last]) ++ [emptyPool.set 0 (some (expandSeed seed))], ?_, ?_, ?_, ?_⟩
    · simp only [Prng.createAsync, haux, hfresh]
      norm_num
    · simp only [stepCount, MAX_INSTANCES, Nat.lt_irrefl, if_false]
      refine ⟨fulls ++ [last], emptyPool.set 0 (some (expandSeed seed)),
        rfl, by simp [hq], ?_, ?_⟩
      · intro p hp
        rcases List.mem_append.mp hp with hp | hp
        · exact hfulls p hp
        · rw [List.mem_singleton.mp hp]
          exact hlast
      · exact filledTo_set emptyPool 0 (by decide) filledTo_zero_emptyPool _
    · simp only [stepCount, MAX_INSTANCES, Nat.lt_irrefl, if_false]
      decide
    · simp [stepCount, hq]

/-- A shaped registry has `q + 1` pools. -/
theorem regShape_length (q k : Nat) (r : Registry) (h : regShape q k r) :
    r.length = q + 1 := by
  obtain ⟨fulls, last, rfl, hq, _, _⟩ := h
  simp [hq]

/-- Iterated `Prng.createAsync` on a shaped registry: every call succeeds and
the final shape is given by the iterated occupancy counter. -/
theorem createAsyncN_shape :
    ∀ (seeds : List Nat) (q k : Nat) (r : Registry), k ≤ MAX_INSTANCES →
      regShape q k r →
      ∃ hs r', Prng.createAsyncN seeds r = some (hs, r') ∧
        hs.length = seeds.length ∧
        regShape (stepCountN seeds.length (q, k)).1
          (stepCountN seeds.length (q, k)).2 r' ∧
        (stepCountN seeds.length (q, k)).2 ≤ MAX_INSTANCES
  | [], q, k, r, hk, hshape => ⟨[], r, rfl, rfl, hshape, hk⟩
  | s :: seeds, q, k, r, hk, hshape => by
    obtain ⟨kh, r1, hcall, hshape1, hk1, _⟩ := createAsync_shape_step s q k r hk hshape
    obtain ⟨hs, r', hrec, hlen, hshape', hk'⟩ :=
      createAsyncN_shape seeds (stepCount (q, k)).1 (stepCount (q, k)).2 r1 hk1 hshape1
    refine ⟨kh :: hs, r', ?_, by simp [hlen], hshape', hk'⟩
    simp only [Prng.createAsyncN, hcall, hrec]

/-- C6: `Prng.createAsync` performs the same in-order scan as the synchronous
`Prng.create`; when every pool is full it instantiates one new pool, appends
it to the registry and allocates the seed into its slot 0; and 512 allocations
from the fresh registry all succeed and leave exactly two pools, each of
capacity 256 with every slot occupied. -/
theorem createAsync_expands (seed : Nat) (r : Registry) :
    (∀ kh r2, Prng.create seed r = (some kh, r2) →
       Prng.createAsync seed r = some (kh, r2)) ∧
    ((∀ p ∈ r, poolFull p) →
       Prng.createAsync seed r =
         some ((r.length, 0), r ++ [emptyPool.set 0 (some (expandSeed seed))])) ∧
    (∀ seeds : List Nat, seeds.length = 512 →
       ∃ hs r', Prng.createAsyncN seeds freshRegistry = some (hs, r') ∧
         hs.length = 512 ∧ r'.length = 2 ∧
         ∀ p ∈ r', p.length = MAX_INSTANCES ∧ poolFull p) := by
  refine ⟨?_, ?_, ?_⟩
  · intro kh r2 heq
    unfold Prng.create at heq
    unfold Prng.createAsync
    rw [heq]
  · intro hfull
    have haux := createAux_all_full seed r hfull
    have hfresh : createInFresh seed =
        ((0 : Int), emptyPool.set 0 (some (expandSeed seed))) := by
      simpa using create_filledTo seed emptyPool 0 (by decide) filledTo_zero_emptyPool
    unfold Prng.createAsync
    rw [haux]
    simp [hfresh]
  · intro seeds hlen
    have hshape0 : regShape 0 0 freshRegistry :=
      ⟨[], emptyPool, rfl, rfl, by simp, filledTo_zero_emptyPool⟩
    obtain ⟨hs, r', hrun, hhs, hshape', _⟩ :=
      createAsyncN_shape seeds 0 0 freshRegistry (by decide) hshape0
    rw [hlen] at hshape' hhs
    have hcount : stepCountN 512 (0, 0) = (1, MAX_INSTANCES) := by decide
    rw [hcount] at hshape'
    obtain ⟨fulls, last, rfl, hq, hfulls, hlast⟩ := hshape'
    obtain ⟨f, rfl⟩ := List.length_eq_one.mp hq
    refine ⟨hs, [f] ++ [last], hrun, hhs, rfl, ?_⟩
    intro p hp
    rcases List.mem_append.mp hp with hp | hp
    · rw [List.mem_singleton.mp hp]
      have hf := hfulls f (List.mem_singleton.mpr rfl)
      exact ⟨hf.1, filledTo_max_poolFull f hf⟩
    · rw [List.mem_singleton.mp hp]
      exact ⟨hlast.1, filledTo_max_poolFull last hlast⟩

/-- Witness for C6: 512 allocations with seed 0 from the fresh registry. -/
theorem createAsync_expands_witness :
    (List.replicate 512 0).length = 512 ∧
    (∃ hs r', Prng.createAsyncN (List.replicate 512 0) freshRegistry = some (hs, r') ∧
      hs.length = 512 ∧ r'.length = 2 ∧
      ∀ p ∈ r', p.length = MAX_INSTANCES ∧ poolFull p) :=
  ⟨by simp,
   (createAsync_expands 0 freshRegistry).2.2 (List.replicate 512 0) (by simp)⟩
